import Mathlib

set_option autoImplicit false

namespace SolanaUI

/-!
Shallow embedding of the furydotbot/solana-ui sources:
  - src/src/utils/moonbuy.ts   (rate limiter, bundle signing, moon-buy flow, validation)
  - src/unnamed/part_000       (CustomBuyModal: signTransactions, sendSignedTransactions,
                                handleNext / handleBack wizard steps)
  - src/src/App.tsx            (wallet import / delete handlers)

JavaScript numbers that only ever hold integer millisecond timestamps or
counters are embedded as Int / Nat; user-entered amounts, which can be NaN,
are embedded as a JSNum type with an explicit nan constructor.  Opaque
external codecs (bs58 encode/decode, VersionedTransaction serialize /
deserialize) are bijections between blobs and structured transactions, so a
transaction blob is embedded directly as its structured form.
-/

/-! ## Rate limiter (moonbuy.ts lines 6-60) -/

/-- Embedding of the mutable rateLimitState object of moonbuy.ts. -/
structure RateLimitState where
  count : Nat
  lastReset : Int
  maxBundlesPerSecond : Nat
  deriving Repr, DecidableEq

/-- MAX_BUNDLES_PER_SECOND constant of moonbuy.ts. -/
def MAX_BUNDLES_PER_SECOND : Nat := 2

/-- Embedding of checkRateLimit (moonbuy.ts lines 44-60) as a pure state
transition.  The two reads of Date.now() are the parameters: now is the read
at entry (line 45), nowAfterSleep the read after the setTimeout sleep
(line 56).  The returned Option Int is the sleep performed: some waitTime
when the cap branch sleeps for waitTime ms, none otherwise. -/
def checkRateLimit (s : RateLimitState) (now nowAfterSleep : Int) :
    RateLimitState × Option Int :=
  let s1 := if 1000 ≤ now - s.lastReset then
      { s with count := 0, lastReset := now }
    else s
  if s1.maxBundlesPerSecond ≤ s1.count then
    ({ s1 with count := 0 + 1, lastReset := nowAfterSleep },
      some (1000 - (now - s1.lastReset)))
  else
    ({ s1 with count := s1.count + 1 }, none)

/-- Folding checkRateLimit over a list of calls; each call supplies its pair
of clock reads. -/
def runRateLimit (s : RateLimitState) (calls : List (Int × Int)) : RateLimitState :=
  calls.foldl (fun st c => (checkRateLimit st c.1 c.2).1) s

/-- Transcription of claim C1 as worded: reset happens when MORE than one
second has elapsed (strict inequality); otherwise identical to
checkRateLimit.  Used only to compare the claim wording with the source. -/
def checkRateLimitClaimed (s : RateLimitState) (now nowAfterSleep : Int) :
    RateLimitState × Option Int :=
  let s1 := if 1000 < now - s.lastReset then
      { s with count := 0, lastReset := now }
    else s
  if s1.maxBundlesPerSecond ≤ s1.count then
    ({ s1 with count := 0 + 1, lastReset := nowAfterSleep },
      some (1000 - (now - s1.lastReset)))
  else
    ({ s1 with count := s1.count + 1 }, none)

/-! ## Bundle submission traces (moonbuy.ts lines 206-220, part_000 lines 266-300)

Submission behaviour is embedded as the list of observable events each path
produces, in program order: a rate-limit check, the start of a bundle send
(the fetch is issued), the resolution of a send (its await completes), and a
sleep.  In executeMoonBuy the loop body awaits checkRateLimit, awaits
sendBundle i, and sleeps 500 ms unless i is the last index.  In
sendSignedTransactions the map callback synchronously starts every fetch;
since the surrounding code holds the event loop until Promise.all is
awaited, no fetch can resolve before every fetch has been started, so every
sendStart precedes every sendDone there (the relative order of the sendDone
events is external nondeterminism; index order is used below, and the
claim-relevant facts — sendStart (i+1) precedes sendDone i, no check, no
sleep — hold for every resolution order). -/

inductive SendEvent where
  | check : SendEvent
  | sleep : Nat → SendEvent
  | sendStart : Nat → SendEvent
  | sendDone : Nat → SendEvent
  deriving DecidableEq, Repr

/-- Event trace of the send loop of executeMoonBuy, started at index i with
k bundles remaining (moonbuy.ts lines 206-220). -/
def moonAux (i : Nat) : Nat → List SendEvent
  | 0 => []
  | 1 => [.check, .sendStart i, .sendDone i]
  | k + 2 => .check :: .sendStart i :: .sendDone i :: .sleep 500 :: moonAux (i + 1) (k + 1)

/-- Event trace of the executeMoonBuy send loop over n signed bundles. -/
def moonBuySendEvents (n : Nat) : List SendEvent := moonAux 0 n

/-- Event trace of sendSignedTransactions (part_000 lines 266-300) over n
signed bundles: all sends are started by the synchronous map, then resolved
under Promise.all. -/
def customBuySendEvents (n : Nat) : List SendEvent :=
  (List.range n).map SendEvent.sendStart ++ (List.range n).map SendEvent.sendDone

/-! ## Bundle signing (moonbuy.ts lines 137-171, part_000 lines 223-263)

A keypair is its public/secret key strings; a versioned transaction is its
staticAccountKeys together with the list of keypairs whose signatures have
been applied.  The external bs58 and VersionedTransaction
serialize/deserialize codecs are inverse bijections between blobs and
structured transactions, so a blob is embedded directly as the structured
transaction it decodes to, and the decode/re-encode steps of the source are
the identity of this embedding. -/

structure Keypair where
  publicKey : String
  secretKey : String
  deriving DecidableEq, Repr

structure VTransaction where
  staticAccountKeys : List String
  appliedSigners : List Keypair
  deriving DecidableEq, Repr

/-- Embedding of transaction.sign(signers): the signatures of exactly the
given keypairs are applied to the transaction. -/
def signTx (tx : VTransaction) (signers : List Keypair) : VTransaction :=
  { tx with appliedSigners := signers }

/-- Embedding of a bundle as received at runtime: the transactions property
is none when it is missing or not an array (the malformed case guarded at
moonbuy.ts lines 142-145 and part_000 lines 228-231). -/
structure RawBundle where
  transactions : Option (List VTransaction)
  deriving DecidableEq, Repr

/-- Embedding of a well-formed signed bundle, as both signing functions
return it. -/
structure SignedBundle where
  transactions : List VTransaction
  deriving DecidableEq, Repr

/-- Loop body of the signer-extraction for-loop (moonbuy.ts lines 154-162):
look up the first held keypair whose public key equals the account key and
push it unless already collected. -/
def addSigner (walletKeypairs : List Keypair) (signers : List Keypair) (k : String) :
    List Keypair :=
  match walletKeypairs.find? (fun kp => kp.publicKey == k) with
  | some kp => if kp ∈ signers then signers else signers ++ [kp]
  | none => signers

/-- Signer extraction of completeBundleSigning / signTransactions: fold the
loop body over the staticAccountKeys of the transaction. -/
def extractSigners (accountKeys : List String) (walletKeypairs : List Keypair) :
    List Keypair :=
  accountKeys.foldl (addSigner walletKeypairs) []

/-- Embedding of completeBundleSigning (moonbuy.ts lines 137-171). -/
def completeBundleSigning (bundle : RawBundle) (walletKeypairs : List Keypair) :
    SignedBundle :=
  match bundle.transactions with
  | none => { transactions := [] }
  | some txs =>
      { transactions :=
          txs.map (fun tx => signTx tx (extractSigners tx.staticAccountKeys walletKeypairs)) }

/-- Embedding of signTransactions (part_000 lines 223-263).  It receives
private keys and derives keypairs with web3.Keypair.fromSecretKey, an
external deterministic derivation embedded as the function parameter
fromSecretKey. -/
def signTransactions (fromSecretKey : String → Keypair) (bundle : RawBundle)
    (privateKeys : List String) : SignedBundle :=
  match bundle.transactions with
  | none => { transactions := [] }
  | some txs =>
      let walletKeypairs := privateKeys.map fromSecretKey
      { transactions :=
          txs.map (fun tx => signTx tx (extractSigners tx.staticAccountKeys walletKeypairs)) }

/-! ## JavaScript numbers and validateMoonBuyInputs (moonbuy.ts lines 238-269)

User-entered amounts are JS numbers that can be NaN, embedded as JSNum; the
IEEE comparisons used by the source return false whenever an operand is NaN. -/

inductive JSNum where
  | nan : JSNum
  | num : ℚ → JSNum
  deriving DecidableEq, Repr

def jsIsNaN : JSNum → Bool
  | .nan => true
  | .num _ => false

def jsLe : JSNum → JSNum → Bool
  | .num a, .num b => decide (a ≤ b)
  | _, _ => false

def jsLt : JSNum → JSNum → Bool
  | .num a, .num b => decide (a < b)
  | _, _ => false

structure WalletMoonBuy where
  address : String
  privateKey : String
  deriving DecidableEq, Repr

structure TokenConfig where
  tokenAddress : String
  solAmount : JSNum
  deriving DecidableEq, Repr

structure ValidationResult where
  valid : Bool
  error : Option String
  deriving DecidableEq, Repr

/-- Embedding of walletBalances.get(wallet.address) || 0: a missing entry
yields 0 (and a present 0, being falsy, also yields 0). -/
def balanceOr0 (walletBalances : List (String × ℚ)) (addr : String) : ℚ :=
  (walletBalances.lookup addr).getD 0

/-- Per-wallet loop of validateMoonBuyInputs (moonbuy.ts lines 257-266):
reject a wallet with a missing address or private key, then a wallet whose
balance is strictly below the SOL amount. -/
def checkWalletList (solAmount : JSNum) (walletBalances : List (String × ℚ)) :
    List WalletMoonBuy → ValidationResult
  | [] => { valid := true, error := none }
  | w :: rest =>
      if w.address = "" ∨ w.privateKey = "" then
        { valid := false, error := some "Invalid wallet data" }
      else if jsLt (JSNum.num (balanceOr0 walletBalances w.address)) solAmount then
        { valid := false,
          error := some ("Wallet " ++ w.address.take 6 ++ "... has insufficient balance") }
      else checkWalletList solAmount walletBalances rest

/-- Embedding of validateMoonBuyInputs (moonbuy.ts lines 238-269).  The
function is pure and total: it makes no network call and cannot throw. -/
def validateMoonBuyInputs (wallets : List WalletMoonBuy) (tokenConfig : TokenConfig)
    (walletBalances : List (String × ℚ)) : ValidationResult :=
  if tokenConfig.tokenAddress = "" then
    { valid := false, error := some "Invalid token address" }
  else if jsIsNaN tokenConfig.solAmount || jsLe tokenConfig.solAmount (JSNum.num 0) then
    { valid := false, error := some "Invalid SOL amount" }
  else if wallets.isEmpty then
    { valid := false, error := some "No wallets provided" }
  else
    checkWalletList tokenConfig.solAmount walletBalances wallets

/-! ## executeMoonBuy (moonbuy.ts lines 176-233)

The three fallible external steps — the backend fetch of
getPartiallyPreparedTransactions, the Keypair.fromSecretKey construction
over the wallets, and each sendBundle call — are embedded as Except-valued
oracles (error carries the thrown message).  executeMoonBuy is then the
total function below; it also returns the list of bundle indices actually
sent, so that at-most-once submission is expressible.  Totality of the
embedding is the shape of the source try/catch: every throw is caught and
converted into a success := false result. -/

structure MoonBuyOutcome where
  success : Bool
  result : Option (List String)
  error : Option String
  deriving DecidableEq, Repr

/-- Send loop of executeMoonBuy (moonbuy.ts lines 206-220) starting at
bundle index i with k bundles remaining: returns the collected results (or
the first thrown error) together with the indices actually sent. -/
def sendAll (sendRes : Nat → Except String String) :
    Nat → Nat → Except String (List String) × List Nat
  | _, 0 => (.ok [], [])
  | i, k + 1 =>
      match sendRes i with
      | .error e => (.error e, [i])
      | .ok r =>
          match sendAll sendRes (i + 1) k with
          | (.ok rs, sent) => (.ok (r :: rs), i :: sent)
          | (.error e, sent) => (.error e, i :: sent)

/-- Embedding of executeMoonBuy (moonbuy.ts lines 176-233). -/
def executeMoonBuy (fetchRes : Except String (List RawBundle))
    (keypairsRes : Except String (List Keypair))
    (sendRes : Nat → Except String String) : MoonBuyOutcome × List Nat :=
  match fetchRes with
  | .error e => ({ success := false, result := none, error := some e }, [])
  | .ok bundles =>
      match keypairsRes with
      | .error e => ({ success := false, result := none, error := some e }, [])
      | .ok kps =>
          let signedBundles := bundles.map (fun b => completeBundleSigning b kps)
          let p := sendAll sendRes 0 signedBundles.length
          match p.1 with
          | .ok rs => ({ success := true, result := some rs, error := none }, p.2)
          | .error e => ({ success := false, result := none, error := some e }, p.2)

/-! ## Custom-buy wizard steps (part_000 lines 10, 39-44, 302-327)

The wizard state is the React state the two handlers read and write.  The
JS builtin parseFloat is embedded for the unsigned decimal strings the
amount fields hold (the input filter of handleWalletAmountChange admits only
digits and one dot): leading digits, an optional dot, further digits;
NaN when no digit occurs before the string of other characters ends. -/

def STEPS_CUSTOMBUY : List String := ["Select Wallets", "Configure Buy", "Review"]

def digitsVal (cs : List Char) : Nat :=
  cs.foldl (fun n c => n * 10 + (c.toNat - 48)) 0

def jsParseFloat (s : String) : JSNum :=
  let cs := s.toList
  let intPart := cs.takeWhile (fun c => c.isDigit)
  let rest := cs.dropWhile (fun c => c.isDigit)
  match rest with
  | '.' :: rest2 =>
      let frac := rest2.takeWhile (fun c => c.isDigit)
      if intPart.isEmpty && frac.isEmpty then JSNum.nan
      else JSNum.num ((digitsVal intPart : ℚ) + (digitsVal frac : ℚ) / ((10 : ℚ) ^ frac.length))
  | _ => if intPart.isEmpty then JSNum.nan else JSNum.num (digitsVal intPart)

structure CustomBuyState where
  currentStep : Int
  selectedWallets : List String
  walletAmounts : List (String × String)
  isConfirmed : Bool
  deriving DecidableEq, Repr

/-- Embedding of the step-1 validation of handleNext (part_000 lines
310-319): some amount is falsy (empty) or parses to a value ≤ 0.  Note that
NaN ≤ 0 is false in IEEE comparison, so an amount that parses to NaN does
NOT count as invalid here. -/
def hasInvalidAmount (amounts : List (String × String)) : Bool :=
  amounts.any (fun p => p.2 == "" || jsLe (jsParseFloat p.2) (JSNum.num 0))

/-- Embedding of handleNext (part_000 lines 302-323). -/
def handleNext (s : CustomBuyState) : CustomBuyState :=
  if s.currentStep = 0 ∧ s.selectedWallets.isEmpty then s
  else if s.currentStep = 1 ∧ hasInvalidAmount s.walletAmounts then s
  else { s with currentStep := min (s.currentStep + 1) ((STEPS_CUSTOMBUY.length : Int) - 1) }

/-- Embedding of handleBack (part_000 lines 325-327). -/
def handleBack (s : CustomBuyState) : CustomBuyState :=
  { s with currentStep := max (s.currentStep - 1) 0 }

/-- Validation condition claimed for step 1: every entered amount parses to
a value strictly greater than 0.  Written from the claim, for comparison
with hasInvalidAmount. -/
def claimedStep1Valid (amounts : List (String × String)) : Prop :=
  ∀ p ∈ amounts, jsLt (JSNum.num 0) (jsParseFloat p.2) = true

/-! ## Wallet import and deletion (App.tsx lines 242-300, 315-333, 368-421)

The WalletType of the excluded Utils module is an id / address / privateKey
record.  importWallet, also in Utils, parses a private key and returns
either a wallet (whose address is derived deterministically from the key)
or an error; it is embedded as the function parameter imp, with none for
the error case.  The balance-map updates of the handlers are embedded on
the maps directly. -/

structure Wallet where
  id : Nat
  address : String
  privateKey : String
  deriving DecidableEq, Repr

/-- Embedding of the wallet-list effect of handleImportWallet (App.tsx
lines 242-300): add the imported wallet unless an already-held wallet has
the same address string. -/
def handleImportWallet (imp : String → Option Wallet) (wallets : List Wallet)
    (key : String) : List Wallet :=
  match imp key with
  | none => wallets
  | some w =>
      if wallets.any (fun x => x.address == w.address) then wallets
      else wallets ++ [w]

/-- Inner loop of importWalletsSequentially (App.tsx lines 373-414): the
duplicate check of each candidate is made against the captured, pre-import
wallet list, never against the wallets imported earlier in the same loop. -/
def importLoop (imp : String → Option Wallet) (wallets : List Wallet) :
    List String → List Wallet
  | [] => []
  | key :: rest =>
      match imp key with
      | none => importLoop imp wallets rest
      | some w =>
          if wallets.any (fun x => x.address == w.address) then importLoop imp wallets rest
          else w :: importLoop imp wallets rest

/-- Embedding of the wallet-list effect of importWalletsSequentially plus
the subsequent setWallets append (App.tsx lines 368-436): the imported
wallets are appended to the previous list (appending the empty list when
nothing could be imported equals the untouched list). -/
def importWalletsSequentially (imp : String → Option Wallet) (wallets : List Wallet)
    (foundKeys : List String) : List Wallet :=
  wallets ++ importLoop imp wallets foundKeys

/-! ## handleDeleteWallet (App.tsx lines 315-333) -/

/-- Modelled from the spec: deleteWallet lives in the excluded Utils module
(App.tsx line 332 calls it); per the spec a wallet is destroyed on explicit
user deletion, so it removes from the list the wallet carrying the given
id. -/
def deleteWallet (wallets : List Wallet) (id : Nat) : List Wallet :=
  wallets.filter (fun w => w.id != id)

/-- Embedding of Map.prototype.delete on an association list with unique
keys: the entries carrying the key are removed. -/
def mapDelete (m : List (String × ℚ)) (key : String) : List (String × ℚ) :=
  m.filter (fun p => p.1 != key)

/-- Embedding of handleDeleteWallet (App.tsx lines 315-333): when a wallet
with the id exists, its address is deleted from the SOL and token balance
maps; the wallet list is updated through deleteWallet in every case. -/
def handleDeleteWallet (wallets : List Wallet) (sol tok : List (String × ℚ))
    (id : Nat) : List Wallet × List (String × ℚ) × List (String × ℚ) :=
  match wallets.find? (fun w => w.id == id) with
  | some w => (deleteWallet wallets id, mapDelete sol w.address, mapDelete tok w.address)
  | none => (deleteWallet wallets id, sol, tok)

theorem checkRateLimit_max (s : RateLimitState) (now after : Int) :
    (checkRateLimit s now after).1.maxBundlesPerSecond = s.maxBundlesPerSecond := by
  unfold checkRateLimit
  dsimp only
  split <;> split <;> rfl

theorem checkRateLimit_count_le (s : RateLimitState) (now after : Int)
    (hm : s.maxBundlesPerSecond = 2) :
    (checkRateLimit s now after).1.count ≤ 2 := by
  unfold checkRateLimit
  dsimp only
  split
  case isTrue h1 =>
    split
    case isTrue h2 => simp
    case isFalse h2 => simp
  case isFalse h1 =>
    split
    case isTrue h2 => simp
    case isFalse h2 => simp [hm] at h2 ⊢; omega

theorem runRateLimit_max (calls : List (Int × Int)) (s : RateLimitState) :
    (runRateLimit s calls).maxBundlesPerSecond = s.maxBundlesPerSecond := by
  induction calls generalizing s with
  | nil => rfl
  | cons c rest ih =>
    show (runRateLimit (checkRateLimit s c.1 c.2).1 rest).maxBundlesPerSecond = _
    rw [ih, checkRateLimit_max]

/-- Claim C1, corrected: checkRateLimit resets the count and window start
when AT LEAST one second (1000 ms or more) has elapsed since the window
start; otherwise, if the count has reached the cap (2), it sleeps exactly
1000 ms minus the elapsed time — strictly positive in that branch — and
resets; in every call the count is finally incremented, so it ends at 1 in
the two reset branches and at its old value plus one otherwise. -/
theorem claim_C1_amended (s : RateLimitState) (now after : Int)
    (hm : s.maxBundlesPerSecond = 2) :
    (1000 ≤ now - s.lastReset →
       checkRateLimit s now after =
         ({ count := 1, lastReset := now, maxBundlesPerSecond := s.maxBundlesPerSecond },
           none)) ∧
    (now - s.lastReset < 1000 → 2 ≤ s.count →
       checkRateLimit s now after =
         ({ count := 1, lastReset := after, maxBundlesPerSecond := s.maxBundlesPerSecond },
           some (1000 - (now - s.lastReset))) ∧
       0 < 1000 - (now - s.lastReset)) ∧
    (now - s.lastReset < 1000 → s.count < 2 →
       checkRateLimit s now after =
         ({ s with count := s.count + 1 }, none)) := by
  refine ⟨fun h1 => ?_, fun h1 h2 => ⟨?_, by omega⟩, fun h1 h2 => ?_⟩
  · unfold checkRateLimit
    dsimp only
    split
    case isTrue hc =>
      split
      case isTrue hd => dsimp at hd; omega
      case isFalse hd => rfl
    case isFalse hc => omega
  · unfold checkRateLimit
    dsimp only
    split
    case isTrue hc => omega
    case isFalse hc =>
      split
      case isTrue hd => rfl
      case isFalse hd => omega
  · unfold checkRateLimit
    dsimp only
    split
    case isTrue hc => omega
    case isFalse hc =>
      split
      case isTrue hd => omega
      case isFalse hd => rfl

/-- Claim C1 counterexample: at exactly 1000 ms of elapsed time with the
count at the cap, the code resets (count ends at 1, no sleep), whereas the
claim as worded — reset only when MORE than one second has elapsed — puts
the call in the sleep branch with a sleep of 0 ms, which is moreover not
strictly positive as the claim asserts. -/
theorem claim_C1_counterexample :
    checkRateLimitClaimed ⟨2, 0, 2⟩ 1000 1500 ≠ checkRateLimit ⟨2, 0, 2⟩ 1000 1500 ∧
    checkRateLimit ⟨2, 0, 2⟩ 1000 1500 = (⟨1, 1000, 2⟩, none) ∧
    checkRateLimitClaimed ⟨2, 0, 2⟩ 1000 1500 = (⟨1, 1500, 2⟩, some 0) := by
  decide

theorem claim_C1_amended_witness :
    checkRateLimit ⟨2, 0, 2⟩ 500 1200 = (⟨1, 1200, 2⟩, some 500) ∧
    (0 : Int) < 500 :=
  (claim_C1_amended ⟨2, 0, 2⟩ 500 1200 rfl).2.1 (by decide) (by decide)

/-- Claim C2: for every sequence of calls to checkRateLimit (each call
supplying its pair of clock reads), starting from any state whose cap is 2,
after every call the count is at most 2.  The quantification over arbitrary
call lists covers every prefix of a longer sequence, hence the count bound
holds after each individual call. -/
theorem claim_C2 (s : RateLimitState) (hm : s.maxBundlesPerSecond = 2)
    (calls : List (Int × Int)) (hne : calls ≠ []) :
    (runRateLimit s calls).count ≤ 2 := by
  rcases List.eq_nil_or_concat calls with h | ⟨L, b, rfl⟩
  · exact absurd h hne
  · have : runRateLimit s (L.concat b) =
        (checkRateLimit (runRateLimit s L) b.1 b.2).1 := by
      simp [runRateLimit, List.concat_eq_append]
    rw [this]
    exact checkRateLimit_count_le _ _ _ (by rw [runRateLimit_max, hm])

theorem claim_C2_witness : (runRateLimit ⟨0, 0, 2⟩ [(5, 5)]).count ≤ 2 :=
  claim_C2 ⟨0, 0, 2⟩ rfl [(5, 5)] (by simp)

theorem moonAux_succ (i k : Nat) :
    moonAux i (k + 1) = SendEvent.check :: SendEvent.sendStart i :: SendEvent.sendDone i ::
      (if k = 0 then [] else SendEvent.sleep 500 :: moonAux (i + 1) k) := by
  cases k with
  | zero => rfl
  | succ k => rfl

theorem moon_block_sublist (k : Nat) :
    ∀ i j, j < k →
      List.Sublist [SendEvent.check, SendEvent.sendStart (i + j), SendEvent.sendDone (i + j)]
        (moonAux i k) := by
  induction k with
  | zero => intro i j hj; omega
  | succ k ih =>
    intro i j hj
    cases j with
    | zero =>
      rw [moonAux_succ]
      exact (List.nil_sublist _).cons₂ _ |>.cons₂ _ |>.cons₂ _
    | succ j =>
      have hk : k ≠ 0 := by omega
      obtain ⟨k2, rfl⟩ := Nat.exists_eq_succ_of_ne_zero hk
      have h := ih (i + 1) j (by omega)
      have hidx : i + 1 + j = i + (j + 1) := by omega
      rw [hidx] at h
      exact ((h.cons _).cons _ |>.cons _ |>.cons _)

theorem moon_gap_sublist (k : Nat) :
    ∀ i j, j + 1 < k →
      List.Sublist [SendEvent.sendDone (i + j), SendEvent.sleep 500, SendEvent.check,
          SendEvent.sendStart (i + j + 1)]
        (moonAux i k) := by
  induction k with
  | zero => intro i j hj; omega
  | succ k ih =>
    intro i j hj
    have hk : k ≠ 0 := by omega
    obtain ⟨k2, rfl⟩ := Nat.exists_eq_succ_of_ne_zero hk
    cases j with
    | zero =>
      show List.Sublist _ (SendEvent.check :: SendEvent.sendStart i :: SendEvent.sendDone i ::
        SendEvent.sleep 500 :: moonAux (i + 1) (k2 + 1))
      rw [moonAux_succ]
      refine ((((((List.nil_sublist _).cons₂ _).cons₂ _).cons₂ _).cons₂ _).cons _).cons _
    | succ j =>
      have h := ih (i + 1) j (by omega)
      have hidx : i + 1 + j = i + (j + 1) := by omega
      rw [hidx] at h
      show List.Sublist _ (SendEvent.check :: SendEvent.sendStart i :: SendEvent.sendDone i ::
        SendEvent.sleep 500 :: moonAux (i + 1) (k2 + 1))
      exact ((h.cons _).cons _ |>.cons _ |>.cons _)

/-- Claim C3, corrected: the moon-buy path (executeMoonBuy) is sequential —
each bundle send is preceded by a rate-limit check, bundle i resolves before
bundle i+1 starts, and a 500 ms sleep separates them, with no sleep after
the last bundle; the custom-buy path (sendSignedTransactions) is NOT
sequential — it starts the send of bundle i+1 before the send of bundle i
has resolved (all fetches are issued by the synchronous map before
Promise.all is awaited) and performs no rate-limit check and no
inter-bundle delay. -/
theorem claim_C3_amended (n i : Nat) (hi : i + 1 < n) :
    List.Sublist [SendEvent.check, SendEvent.sendStart i, SendEvent.sendDone i]
      (moonBuySendEvents n) ∧
    List.Sublist [SendEvent.sendDone i, SendEvent.sleep 500, SendEvent.check,
        SendEvent.sendStart (i + 1)] (moonBuySendEvents n) ∧
    List.Sublist [SendEvent.sendStart (i + 1), SendEvent.sendDone i]
      (customBuySendEvents n) ∧
    SendEvent.check ∉ customBuySendEvents n ∧
    ∀ m, SendEvent.sleep m ∉ customBuySendEvents n := by
  refine ⟨?_, ?_, ?_, ?_, ?_⟩
  · have h := moon_block_sublist n 0 i (by omega)
    simpa [moonBuySendEvents] using h
  · have h := moon_gap_sublist n 0 i (by omega)
    simpa [moonBuySendEvents] using h
  · show List.Sublist ([SendEvent.sendStart (i + 1)] ++ [SendEvent.sendDone i]) _
    refine List.Sublist.append ?_ ?_
    · exact List.singleton_sublist.mpr (List.mem_map.mpr ⟨i + 1, List.mem_range.mpr hi, rfl⟩)
    · exact List.singleton_sublist.mpr (List.mem_map.mpr ⟨i, List.mem_range.mpr (by omega), rfl⟩)
  · simp [customBuySendEvents]
  · intro m
    simp [customBuySendEvents]

/-- Claim C3 counterexample: with two signed bundles, the custom-buy path
(sendSignedTransactions) starts the send of bundle 1 before the send of
bundle 0 has resolved, and its trace contains no rate-limit check and no
sleep — refuting the claim that every bundle-submission path is sequential
with a rate-limit check before each send and a 500 ms delay in between. -/
theorem claim_C3_counterexample :
    customBuySendEvents 2 = [SendEvent.sendStart 0, SendEvent.sendStart 1,
      SendEvent.sendDone 0, SendEvent.sendDone 1] ∧
    List.indexOf (SendEvent.sendStart 1) (customBuySendEvents 2) <
      List.indexOf (SendEvent.sendDone 0) (customBuySendEvents 2) ∧
    SendEvent.check ∉ customBuySendEvents 2 ∧
    SendEvent.sleep 500 ∉ customBuySendEvents 2 := by decide

theorem claim_C3_amended_witness :
    List.Sublist [SendEvent.check, SendEvent.sendStart 0, SendEvent.sendDone 0]
      (moonBuySendEvents 2) ∧
    List.Sublist [SendEvent.sendDone 0, SendEvent.sleep 500, SendEvent.check,
        SendEvent.sendStart 1] (moonBuySendEvents 2) ∧
    List.Sublist [SendEvent.sendStart 1, SendEvent.sendDone 0]
      (customBuySendEvents 2) :=
  ⟨(claim_C3_amended 2 0 (by omega)).1, (claim_C3_amended 2 0 (by omega)).2.1,
    (claim_C3_amended 2 0 (by omega)).2.2.1⟩

theorem mem_addSigner (wks acc : List Keypair) (k : String) (kp : Keypair) :
    kp ∈ addSigner wks acc k ↔
      kp ∈ acc ∨ wks.find? (fun x => x.publicKey == k) = some kp := by
  unfold addSigner
  cases hfind : wks.find? (fun x => x.publicKey == k) with
  | none => simp [hfind]
  | some kp2 =>
    by_cases hmem : kp2 ∈ acc
    · simp only [hmem, if_true, Option.some.injEq]
      constructor
      · exact fun h => Or.inl h
      · rintro (h | rfl)
        · exact h
        · exact hmem
    · simp only [hmem, if_false, List.mem_append, List.mem_singleton, Option.some.injEq]
      constructor
      · rintro (h | rfl)
        · exact Or.inl h
        · exact Or.inr rfl
      · rintro (h | rfl)
        · exact Or.inl h
        · exact Or.inr rfl

theorem nodup_addSigner (wks acc : List Keypair) (k : String) (h : acc.Nodup) :
    (addSigner wks acc k).Nodup := by
  unfold addSigner
  cases hfind : wks.find? (fun x => x.publicKey == k) with
  | none => exact h
  | some kp2 =>
    by_cases hmem : kp2 ∈ acc
    · simpa [hmem] using h
    · simp [hmem, List.nodup_append, h]

theorem mem_extractSigners_aux (wks : List Keypair) (keys : List String) :
    ∀ (acc : List Keypair) (kp : Keypair),
      kp ∈ keys.foldl (addSigner wks) acc ↔
        kp ∈ acc ∨ ∃ k ∈ keys, wks.find? (fun x => x.publicKey == k) = some kp := by
  induction keys with
  | nil => intro acc kp; simp
  | cons k keys ih =>
    intro acc kp
    rw [List.foldl_cons, ih, mem_addSigner]
    constructor
    · rintro ((h | h) | ⟨k2, hk2, h⟩)
      · exact Or.inl h
      · exact Or.inr ⟨k, List.mem_cons_self _ _, h⟩
      · exact Or.inr ⟨k2, List.mem_cons_of_mem _ hk2, h⟩
    · rintro (h | ⟨k2, hk2, h⟩)
      · exact Or.inl (Or.inl h)
      · rcases List.mem_cons.mp hk2 with rfl | hk2
        · exact Or.inl (Or.inr h)
        · exact Or.inr ⟨k2, hk2, h⟩

theorem nodup_extractSigners (keys : List String) (wks : List Keypair) :
    (extractSigners keys wks).Nodup := by
  unfold extractSigners
  have : ∀ acc : List Keypair, acc.Nodup → (keys.foldl (addSigner wks) acc).Nodup := by
    induction keys with
    | nil => intro acc h; exact h
    | cons k keys ih =>
      intro acc h
      rw [List.foldl_cons]
      exact ih _ (nodup_addSigner wks acc k h)
  exact this [] List.nodup_nil

theorem find?_pubkey_eq (wks : List Keypair)
    (hinj : ∀ a ∈ wks, ∀ b ∈ wks, a.publicKey = b.publicKey → a = b)
    (k : String) (kp : Keypair) :
    wks.find? (fun x => x.publicKey == k) = some kp ↔ kp ∈ wks ∧ kp.publicKey = k := by
  induction wks with
  | nil => simp
  | cons a tl ih =>
    have hinj2 : ∀ x ∈ tl, ∀ y ∈ tl, x.publicKey = y.publicKey → x = y := by
      intro x hx y hy
      exact hinj x (List.mem_cons_of_mem _ hx) y (List.mem_cons_of_mem _ hy)
    rw [List.find?_cons]
    cases hbeq : a.publicKey == k with
    | true =>
      have hpa : a.publicKey = k := by simpa using hbeq
      simp only [Option.some.injEq, List.mem_cons]
      constructor
      · rintro rfl
        exact ⟨Or.inl rfl, hpa⟩
      · rintro ⟨hm | hm, hk⟩
        · exact hm.symm
        · exact hinj a (List.mem_cons_self _ _) kp (List.mem_cons_of_mem _ hm)
            (hpa.trans hk.symm)
    | false =>
      have hpa : a.publicKey ≠ k := by simpa using hbeq
      dsimp only
      rw [ih hinj2]
      simp only [List.mem_cons]
      constructor
      · rintro ⟨hm, hk⟩
        exact ⟨Or.inr hm, hk⟩
      · rintro ⟨hm | hm, hk⟩
        · subst hm; exact absurd hk hpa
        · exact ⟨hm, hk⟩

theorem mem_extractSigners (keys : List String) (wks : List Keypair)
    (hinj : ∀ a ∈ wks, ∀ b ∈ wks, a.publicKey = b.publicKey → a = b) (kp : Keypair) :
    kp ∈ extractSigners keys wks ↔ kp ∈ wks ∧ kp.publicKey ∈ keys := by
  unfold extractSigners
  rw [mem_extractSigners_aux]
  simp only [List.not_mem_nil, false_or]
  constructor
  · rintro ⟨k, hk, hfind⟩
    obtain ⟨hm, hpk⟩ := (find?_pubkey_eq wks hinj k kp).mp hfind
    exact ⟨hm, hpk ▸ hk⟩
  · rintro ⟨hm, hpk⟩
    exact ⟨kp.publicKey, hpk, (find?_pubkey_eq wks hinj kp.publicKey kp).mpr ⟨hm, rfl⟩⟩

/-- Claim C4: signing is by public-key set membership.  For a bundle whose
transactions are present, the output has exactly one signed transaction per
input transaction in the same order (the map equation); each transaction is
signed with exactly the held keypairs whose public key occurs among its
staticAccountKeys, each keypair at most once (Nodup); and the
signTransactions path of part_000 agrees with completeBundleSigning once the
private keys are derived to keypairs.  The hypothesis hinj states that a
public key determines the held keypair, which holds of real keypairs since
the public key is derived deterministically from the secret key. -/
theorem claim_C4 (bundle : RawBundle) (txs : List VTransaction) (wks : List Keypair)
    (hb : bundle.transactions = some txs)
    (hinj : ∀ a ∈ wks, ∀ b ∈ wks, a.publicKey = b.publicKey → a = b) :
    (completeBundleSigning bundle wks).transactions =
      txs.map (fun tx => signTx tx (extractSigners tx.staticAccountKeys wks)) ∧
    (completeBundleSigning bundle wks).transactions.length = txs.length ∧
    (∀ tx ∈ txs, ∀ kp, kp ∈ extractSigners tx.staticAccountKeys wks ↔
        kp ∈ wks ∧ kp.publicKey ∈ tx.staticAccountKeys) ∧
    (∀ tx ∈ txs, (extractSigners tx.staticAccountKeys wks).Nodup) ∧
    (∀ (fromSecretKey : String → Keypair) (privateKeys : List String),
        signTransactions fromSecretKey bundle privateKeys =
          completeBundleSigning bundle (privateKeys.map fromSecretKey)) := by
  refine ⟨?_, ?_, ?_, ?_, ?_⟩
  · simp [completeBundleSigning, hb]
  · simp [completeBundleSigning, hb]
  · intro tx _ kp
    exact mem_extractSigners tx.staticAccountKeys wks hinj kp
  · intro tx _
    exact nodup_extractSigners tx.staticAccountKeys wks
  · intro fromSecretKey privateKeys
    simp [signTransactions, completeBundleSigning, hb]

theorem claim_C4_witness :
    (completeBundleSigning { transactions := some [⟨["pkA", "pkX"], []⟩] }
        [⟨"pkA", "skA"⟩, ⟨"pkB", "skB"⟩]).transactions =
      [signTx ⟨["pkA", "pkX"], []⟩
        (extractSigners ["pkA", "pkX"] [⟨"pkA", "skA"⟩, ⟨"pkB", "skB"⟩])] :=
  (claim_C4 { transactions := some [⟨["pkA", "pkX"], []⟩] } [⟨["pkA", "pkX"], []⟩]
    [⟨"pkA", "skA"⟩, ⟨"pkB", "skB"⟩] rfl (by decide)).1

/-- Claim C10: a bundle whose transactions property is missing or not an
array (embedded as none) is absorbed by both signing functions: each returns
the empty bundle rather than raising an error; in the embedding both
functions are total, so the surrounding map over bundles proceeds. -/
theorem claim_C10 (bundle : RawBundle) (hb : bundle.transactions = none)
    (wks : List Keypair) (fromSecretKey : String → Keypair) (privateKeys : List String) :
    completeBundleSigning bundle wks = { transactions := [] } ∧
    signTransactions fromSecretKey bundle privateKeys = { transactions := [] } := by
  constructor
  · simp [completeBundleSigning, hb]
  · simp [signTransactions, hb]

theorem claim_C10_witness :
    completeBundleSigning { transactions := none } [⟨"pkA", "skA"⟩] =
      { transactions := [] } ∧
    signTransactions (fun s => ⟨s, s⟩) { transactions := none } ["skA"] =
      { transactions := [] } :=
  claim_C10 { transactions := none } rfl [⟨"pkA", "skA"⟩] (fun s => ⟨s, s⟩) ["skA"]

theorem checkWalletList_false_iff (q : ℚ) (bal : List (String × ℚ))
    (ws : List WalletMoonBuy) :
    (checkWalletList (JSNum.num q) bal ws).valid = false ↔
      (∃ w ∈ ws, w.address = "" ∨ w.privateKey = "") ∨
      (∃ w ∈ ws, balanceOr0 bal w.address < q) := by
  induction ws with
  | nil => simp [checkWalletList]
  | cons w rest ih =>
    unfold checkWalletList
    by_cases hf : w.address = "" ∨ w.privateKey = ""
    · rw [if_pos hf]
      simp only [eq_self_iff_true, true_iff]
      exact Or.inl ⟨w, List.mem_cons_self _ _, hf⟩
    · rw [if_neg hf]
      by_cases hb : balanceOr0 bal w.address < q
      · rw [if_pos (by simp [jsLt, hb])]
        simp only [eq_self_iff_true, true_iff]
        exact Or.inr ⟨w, List.mem_cons_self _ _, hb⟩
      · rw [if_neg (by simp [jsLt, hb])]
        rw [ih]
        constructor
        · rintro (⟨x, hx, hxf⟩ | ⟨x, hx, hxb⟩)
          · exact Or.inl ⟨x, List.mem_cons_of_mem _ hx, hxf⟩
          · exact Or.inr ⟨x, List.mem_cons_of_mem _ hx, hxb⟩
        · rintro (⟨x, hx, hxf⟩ | ⟨x, hx, hxb⟩)
          · rcases List.mem_cons.mp hx with rfl | hx
            · exact absurd hxf hf
            · exact Or.inl ⟨x, hx, hxf⟩
          · rcases List.mem_cons.mp hx with rfl | hx
            · exact absurd hxb hb
            · exact Or.inr ⟨x, hx, hxb⟩

theorem checkWalletList_error_cases (q : JSNum) (bal : List (String × ℚ))
    (ws : List WalletMoonBuy) :
    (checkWalletList q bal ws) = { valid := true, error := none } ∨
    ((checkWalletList q bal ws).valid = false ∧
      ∃ e, (checkWalletList q bal ws).error = some e) := by
  induction ws with
  | nil => exact Or.inl rfl
  | cons w rest ih =>
    unfold checkWalletList
    by_cases hf : w.address = "" ∨ w.privateKey = ""
    · rw [if_pos hf]
      exact Or.inr ⟨rfl, _, rfl⟩
    · rw [if_neg hf]
      by_cases hb : jsLt (JSNum.num (balanceOr0 bal w.address)) q = true
      · rw [if_pos hb]
        exact Or.inr ⟨rfl, _, rfl⟩
      · rw [if_neg hb]
        exact ih

/-- Claim C5: validateMoonBuyInputs is invalid exactly when the token
address is empty, or the SOL amount is NaN or not strictly positive, or the
wallet list is empty, or some wallet misses its address or private key, or
the balance of some wallet (0 when its address is absent from the balance map)
is strictly below the SOL amount; when invalid it carries an error message
and when valid it carries none.  The embedding is a pure total function:
no network call, no exception. -/
theorem claim_C5 (wallets : List WalletMoonBuy) (tc : TokenConfig)
    (bal : List (String × ℚ)) :
    ((validateMoonBuyInputs wallets tc bal).valid = false ↔
      (tc.tokenAddress = "" ∨ tc.solAmount = JSNum.nan ∨
       (∃ q, tc.solAmount = JSNum.num q ∧ q ≤ 0) ∨ wallets = [] ∨
       (∃ w ∈ wallets, w.address = "" ∨ w.privateKey = "") ∨
       (∃ w ∈ wallets, ∃ q, tc.solAmount = JSNum.num q ∧ balanceOr0 bal w.address < q))) ∧
    ((validateMoonBuyInputs wallets tc bal).valid = false →
      ∃ e, (validateMoonBuyInputs wallets tc bal).error = some e) ∧
    ((validateMoonBuyInputs wallets tc bal).valid = true →
      (validateMoonBuyInputs wallets tc bal).error = none) := by
  have hmain : (validateMoonBuyInputs wallets tc bal).valid = false ↔
      (tc.tokenAddress = "" ∨ tc.solAmount = JSNum.nan ∨
       (∃ q, tc.solAmount = JSNum.num q ∧ q ≤ 0) ∨ wallets = [] ∨
       (∃ w ∈ wallets, w.address = "" ∨ w.privateKey = "") ∨
       (∃ w ∈ wallets, ∃ q, tc.solAmount = JSNum.num q ∧ balanceOr0 bal w.address < q)) := by
    unfold validateMoonBuyInputs
    by_cases h1 : tc.tokenAddress = ""
    · simp [h1]
    · rw [if_neg h1]
      cases htc : tc.solAmount with
      | nan => simp [jsIsNaN, h1, htc]
      | num q =>
        by_cases hq : q ≤ 0
        · rw [if_pos (by simp [jsIsNaN, jsLe, hq])]
          simp [h1, htc, hq]
        · rw [if_neg (by simp [jsIsNaN, jsLe, hq])]
          by_cases hw : wallets = []
          · simp [hw, h1, htc, hq]
          · rw [if_neg (by simpa [List.isEmpty_iff] using hw)]
            rw [checkWalletList_false_iff]
            simp [h1, htc, hq, hw]
  refine ⟨hmain, ?_, ?_⟩
  · intro hfalse
    unfold validateMoonBuyInputs at hfalse ⊢
    by_cases h1 : tc.tokenAddress = ""
    · simp [h1]
    · rw [if_neg h1] at hfalse ⊢
      by_cases h2 : (jsIsNaN tc.solAmount || jsLe tc.solAmount (JSNum.num 0)) = true
      · simp [h2]
      · rw [if_neg (by simpa using h2)] at hfalse ⊢
        by_cases h3 : wallets.isEmpty = true
        · simp [h3]
        · rw [if_neg (by simpa using h3)] at hfalse ⊢
          rcases checkWalletList_error_cases tc.solAmount bal wallets with hcase | ⟨_, e, he⟩
          · rw [hcase] at hfalse
            simp at hfalse
          · exact ⟨e, he⟩
  · intro htrue
    unfold validateMoonBuyInputs at htrue ⊢
    by_cases h1 : tc.tokenAddress = ""
    · rw [if_pos h1] at htrue
      simp at htrue
    · rw [if_neg h1] at htrue ⊢
      by_cases h2 : (jsIsNaN tc.solAmount || jsLe tc.solAmount (JSNum.num 0)) = true
      · rw [if_pos h2] at htrue
        simp at htrue
      · rw [if_neg (by simpa using h2)] at htrue ⊢
        by_cases h3 : wallets.isEmpty = true
        · rw [if_pos h3] at htrue
          simp at htrue
        · rw [if_neg (by simpa using h3)] at htrue ⊢
          rcases checkWalletList_error_cases tc.solAmount bal wallets with hcase | ⟨hfalse, _⟩
          · rw [hcase]
          · rw [hfalse] at htrue
            simp at htrue

theorem claim_C5_witness :
    (validateMoonBuyInputs [⟨"addrA", "keyA"⟩] ⟨"tok", JSNum.num 1⟩
      [("addrA", (1 : ℚ) / 2)]).valid = false :=
  (claim_C5 [⟨"addrA", "keyA"⟩] ⟨"tok", JSNum.num 1⟩ [("addrA", (1 : ℚ) / 2)]).1.mpr
    (Or.inr (Or.inr (Or.inr (Or.inr (Or.inr
      ⟨⟨"addrA", "keyA"⟩, List.mem_cons_self _ _, 1, rfl, by norm_num [balanceOr0]⟩)))))

theorem sendAll_sent_ge (sendRes : Nat → Except String String) (k : Nat) :
    ∀ i j, j ∈ (sendAll sendRes i k).2 → i ≤ j := by
  induction k with
  | zero => intro i j hj; simp [sendAll] at hj
  | succ k ih =>
    intro i j hj
    unfold sendAll at hj
    cases hs : sendRes i with
    | error e =>
      rw [hs] at hj
      simp at hj
      omega
    | ok r =>
      rw [hs] at hj
      cases hrec : sendAll sendRes (i + 1) k with
      | mk res sent =>
        rw [hrec] at hj
        cases res with
        | ok rs =>
          simp at hj
          rcases hj with rfl | hj
          · omega
          · have := ih (i + 1) j (by rw [hrec]; exact hj)
            omega
        | error e =>
          simp at hj
          rcases hj with rfl | hj
          · omega
          · have := ih (i + 1) j (by rw [hrec]; exact hj)
            omega

theorem sendAll_sent_nodup (sendRes : Nat → Except String String) (k : Nat) :
    ∀ i, (sendAll sendRes i k).2.Nodup := by
  induction k with
  | zero => intro i; simp [sendAll]
  | succ k ih =>
    intro i
    unfold sendAll
    cases hs : sendRes i with
    | error e => simp
    | ok r =>
      cases hrec : sendAll sendRes (i + 1) k with
      | mk res sent =>
        have hsent : sent.Nodup := by
          have := ih (i + 1)
          rw [hrec] at this
          exact this
        have hge : ∀ j ∈ sent, i + 1 ≤ j := by
          intro j hj
          have := sendAll_sent_ge sendRes k (i + 1) j (by rw [hrec]; exact hj)
          exact this
        cases res with
        | ok rs =>
          simp only [List.nodup_cons]
          exact ⟨fun hmem => by have := hge i hmem; omega, hsent⟩
        | error e =>
          simp only [List.nodup_cons]
          exact ⟨fun hmem => by have := hge i hmem; omega, hsent⟩

theorem sendAll_ok_iff (sendRes : Nat → Except String String) (k : Nat) :
    ∀ i, (∃ rs, (sendAll sendRes i k).1 = .ok rs) ↔
      ∀ j, j < k → ∃ r, sendRes (i + j) = .ok r := by
  induction k with
  | zero =>
    intro i
    simp [sendAll]
  | succ k ih =>
    intro i
    unfold sendAll
    cases hs : sendRes i with
    | error e =>
      simp only
      constructor
      · rintro ⟨rs, hrs⟩
        exact absurd hrs (by simp)
      · intro h
        obtain ⟨r, hr⟩ := h 0 (by omega)
        rw [Nat.add_zero] at hr
        rw [hr] at hs
        exact absurd hs (by simp)
    | ok r =>
      cases hrec : sendAll sendRes (i + 1) k with
      | mk res sent =>
        have ihspec := ih (i + 1)
        rw [hrec] at ihspec
        cases res with
        | ok rs =>
          simp only
          constructor
          · intro _ j hj
            cases j with
            | zero => exact ⟨r, by simpa using hs⟩
            | succ j =>
              obtain ⟨r2, hr2⟩ := ihspec.mp ⟨rs, rfl⟩ j (by omega)
              exact ⟨r2, by rw [show i + (j + 1) = i + 1 + j by omega]; exact hr2⟩
          · intro _
            exact ⟨r :: rs, rfl⟩
        | error e =>
          simp only
          constructor
          · rintro ⟨rs, hrs⟩
            exact absurd hrs (by simp)
          · intro h
            have : ∀ j, j < k → ∃ r2, sendRes (i + 1 + j) = .ok r2 := by
              intro j hj
              obtain ⟨r2, hr2⟩ := h (j + 1) (by omega)
              exact ⟨r2, by rw [show i + 1 + j = i + (j + 1) by omega]; exact hr2⟩
            obtain ⟨rs, hrs⟩ := ihspec.mpr this
            exact absurd hrs (by simp)

/-- Claim C6: executeMoonBuy is total in the embedding (every throw of the
three fallible steps is caught), resolves to success with a result exactly
when the fetch, the keypair construction and every bundle send succeed,
carries the message of the failing step otherwise, and sends each bundle at most
once (the list of sent indices has no duplicates), hence never retries. -/
theorem claim_C6 (fetchRes : Except String (List RawBundle))
    (keypairsRes : Except String (List Keypair))
    (sendRes : Nat → Except String String) :
    (executeMoonBuy fetchRes keypairsRes sendRes).2.Nodup ∧
    (∀ e, fetchRes = .error e →
      (executeMoonBuy fetchRes keypairsRes sendRes).1 =
        { success := false, result := none, error := some e }) ∧
    (∀ bundles e, fetchRes = .ok bundles → keypairsRes = .error e →
      (executeMoonBuy fetchRes keypairsRes sendRes).1 =
        { success := false, result := none, error := some e }) ∧
    (∀ bundles kps, fetchRes = .ok bundles → keypairsRes = .ok kps →
      ((executeMoonBuy fetchRes keypairsRes sendRes).1.success = true ↔
        ∀ j, j < bundles.length → ∃ r, sendRes j = .ok r)) ∧
    ((executeMoonBuy fetchRes keypairsRes sendRes).1.success = true →
      ∃ rs, (executeMoonBuy fetchRes keypairsRes sendRes).1.result = some rs ∧
        (executeMoonBuy fetchRes keypairsRes sendRes).1.error = none) ∧
    ((executeMoonBuy fetchRes keypairsRes sendRes).1.success = false →
      (executeMoonBuy fetchRes keypairsRes sendRes).1.result = none ∧
        ∃ e, (executeMoonBuy fetchRes keypairsRes sendRes).1.error = some e) := by
  cases fetchRes with
  | error e =>
    refine ⟨by simp [executeMoonBuy], ?_, ?_, ?_, ?_, ?_⟩
    · intro e2 he
      cases he
      rfl
    · intro bundles e2 he
      cases he
    · intro bundles kps he
      cases he
    · intro h
      simp [executeMoonBuy] at h
    · intro _
      exact ⟨rfl, e, rfl⟩
  | ok bundles =>
    cases keypairsRes with
    | error e =>
      refine ⟨by simp [executeMoonBuy], ?_, ?_, ?_, ?_, ?_⟩
      · intro e2 he
        cases he
      · intro bundles2 e2 hb he
        cases he
        rfl
      · intro bundles2 kps hb he
        cases he
      · intro h
        simp [executeMoonBuy] at h
      · intro _
        exact ⟨rfl, e, rfl⟩
    | ok kps =>
      have hnodup := sendAll_sent_nodup sendRes bundles.length 0
      have hok := sendAll_ok_iff sendRes bundles.length 0
      simp only [Nat.zero_add] at hok
      cases hp : (sendAll sendRes 0 bundles.length).1 with
      | ok rs =>
        refine ⟨?_, ?_, ?_, ?_, ?_, ?_⟩
        · simpa [executeMoonBuy, hp] using hnodup
        · intro e2 he
          cases he
        · intro bundles2 e2 hb he
          cases he
        · intro bundles2 kps2 hb he
          cases hb
          cases he
          simp only [executeMoonBuy, List.length_map, hp]
          constructor
          · intro _ j hj
            exact (hok.mp ⟨rs, hp⟩) j hj
          · intro _
            trivial
        · intro _
          exact ⟨rs, by simp [executeMoonBuy, hp], by simp [executeMoonBuy, hp]⟩
        · intro h
          simp [executeMoonBuy, hp] at h
      | error e =>
        refine ⟨?_, ?_, ?_, ?_, ?_, ?_⟩
        · simpa [executeMoonBuy, hp] using hnodup
        · intro e2 he
          cases he
        · intro bundles2 e2 hb he
          cases he
        · intro bundles2 kps2 hb he
          cases hb
          cases he
          simp only [executeMoonBuy, List.length_map, hp]
          constructor
          · intro h
            simp at h
          · intro hall
            obtain ⟨rs, hrs⟩ := hok.mpr hall
            rw [hp] at hrs
            exact absurd hrs (by simp)
        · intro h
          simp [executeMoonBuy, hp] at h
        · intro _
          exact ⟨by simp [executeMoonBuy, hp], e, by simp [executeMoonBuy, hp]⟩

theorem claim_C6_witness :
    (executeMoonBuy (.ok [{ transactions := some [] }]) (.ok [])
      (fun _ => .ok "landed")).2.Nodup :=
  (claim_C6 (.ok [{ transactions := some [] }]) (.ok []) (fun _ => .ok "landed")).1

/-- Claim C7, corrected: the wizard step stays in 0..2 under both handlers;
handleNext advances by exactly one only when the code validation of the
current step passes, where the step-1 validation requires every amount to be
non-empty and NOT to parse to a value ≤ 0 — an amount parsing to NaN (such
as a lone dot, which the amount-field input filter admits) passes this
check; handleBack only decrements the step, clamped at 0, leaving every
other field (including the confirmed flag) unchanged, and handleNext
changes no field but the step. -/
theorem claim_C7_amended (s : CustomBuyState)
    (hlo : 0 ≤ s.currentStep) (hhi : s.currentStep ≤ 2) :
    (0 ≤ (handleNext s).currentStep ∧ (handleNext s).currentStep ≤ 2) ∧
    (0 ≤ (handleBack s).currentStep ∧ (handleBack s).currentStep ≤ 2) ∧
    ((handleNext s).currentStep ≠ s.currentStep →
       (handleNext s).currentStep = s.currentStep + 1 ∧
       (s.currentStep = 0 → s.selectedWallets ≠ []) ∧
       (s.currentStep = 1 → hasInvalidAmount s.walletAmounts = false)) ∧
    (s.currentStep < 2 → (s.currentStep = 0 → s.selectedWallets ≠ []) →
       (s.currentStep = 1 → hasInvalidAmount s.walletAmounts = false) →
       (handleNext s).currentStep = s.currentStep + 1) ∧
    ((handleNext s).selectedWallets = s.selectedWallets ∧
     (handleNext s).walletAmounts = s.walletAmounts ∧
     (handleNext s).isConfirmed = s.isConfirmed) ∧
    handleBack s = { s with currentStep := max (s.currentStep - 1) 0 } := by
  have hlen : (STEPS_CUSTOMBUY.length : Int) - 1 = 2 := by rfl
  refine ⟨?_, ?_, ?_, ?_, ?_, rfl⟩
  · unfold handleNext
    split
    · exact ⟨hlo, hhi⟩
    · split
      · exact ⟨hlo, hhi⟩
      · refine ⟨?_, ?_⟩ <;> simp only [hlen] <;> omega
  · unfold handleBack
    refine ⟨?_, ?_⟩ <;> simp only [] <;> omega
  · unfold handleNext
    split
    case isTrue h => intro hne; exact absurd rfl hne
    · split
      case isTrue h => intro hne; exact absurd rfl hne
      case isFalse h1 h2 =>
        intro hne
        simp only [hlen] at hne ⊢
        refine ⟨by omega, ?_, ?_⟩
        · intro h0
          intro hsel
          exact h1 ⟨h0, by simp [hsel]⟩
        · intro hstep
          cases hinv : hasInvalidAmount s.walletAmounts with
          | false => rfl
          | true => exact absurd ⟨hstep, hinv⟩ h2
  · intro hlt hsel hamt
    unfold handleNext
    split
    case isTrue h =>
      exact absurd (List.isEmpty_iff.mp h.2) (hsel h.1)
    · split
      case isTrue h =>
        rw [hamt h.1] at h
        exact absurd h.2 (by simp)
      case isFalse h1 h2 =>
        simp only [hlen]
        omega
  · unfold handleNext
    split
    · exact ⟨rfl, rfl, rfl⟩
    · split
      · exact ⟨rfl, rfl, rfl⟩
      · exact ⟨rfl, rfl, rfl⟩

/-- Claim C7 counterexample: at step 1 with the amount "." (admitted by the
amount-field input filter), parseFloat yields NaN, which does not parse to a
value strictly greater than 0, yet handleNext advances the step — refuting
the claim that handleNext advances only when every entered amount parses
to a value strictly greater than 0. -/
theorem claim_C7_counterexample :
    (handleNext ⟨1, ["w"], [("w", ".")], false⟩).currentStep = 2 ∧
    jsParseFloat "." = JSNum.nan ∧
    ¬ claimedStep1Valid [("w", ".")] := by
  refine ⟨?_, ?_, ?_⟩
  · decide
  · decide
  · intro h
    have := h ("w", ".") (List.mem_cons_self _ _)
    revert this
    decide

theorem claim_C7_amended_witness :
    0 ≤ (handleNext ⟨0, ["w"], [], false⟩).currentStep ∧
    (handleNext ⟨0, ["w"], [], false⟩).currentStep ≤ 2 :=
  (claim_C7_amended ⟨0, ["w"], [], false⟩ (by decide) (by decide)).1

theorem importLoop_fresh (imp : String → Option Wallet) (wallets : List Wallet)
    (keys : List String) :
    ∀ w ∈ importLoop imp wallets keys, ∀ x ∈ wallets, x.address ≠ w.address := by
  induction keys with
  | nil => intro w hw; simp [importLoop] at hw
  | cons key rest ih =>
    intro w hw x hx
    unfold importLoop at hw
    cases himp : imp key with
    | none =>
      rw [himp] at hw
      exact ih w hw x hx
    | some w2 =>
      rw [himp] at hw
      dsimp only at hw
      by_cases hany : wallets.any (fun y => y.address == w2.address) = true
      · rw [if_pos hany] at hw
        exact ih w hw x hx
      · rw [if_neg hany] at hw
        rcases List.mem_cons.mp hw with rfl | hw
        · intro heq
          exact hany (List.any_eq_true.mpr ⟨x, hx, by simp [heq]⟩)
        · exact ih w hw x hx

/-- Claim C8, corrected: the single-key import preserves pairwise-distinct
addresses, and every wallet added by the multi-key file import has an
address distinct from every pre-import wallet; but the file import checks
candidates only against the pre-import list, so duplicate keys within one
file are each added, and the post-import list has pairwise-distinct
addresses only under the additional premise that the addresses imported
from the file are themselves pairwise distinct. -/
theorem claim_C8_amended (imp : String → Option Wallet) (wallets : List Wallet)
    (key : String) (keys : List String)
    (hnodup : (wallets.map Wallet.address).Nodup) :
    ((handleImportWallet imp wallets key).map Wallet.address).Nodup ∧
    (∀ w ∈ importLoop imp wallets keys, ∀ x ∈ wallets, x.address ≠ w.address) ∧
    (((importLoop imp wallets keys).map Wallet.address).Nodup →
       ((importWalletsSequentially imp wallets keys).map Wallet.address).Nodup) := by
  refine ⟨?_, importLoop_fresh imp wallets keys, ?_⟩
  · unfold handleImportWallet
    cases himp : imp key with
    | none => exact hnodup
    | some w =>
      dsimp only
      by_cases hany : wallets.any (fun x => x.address == w.address) = true
      · rw [if_pos hany]
        exact hnodup
      · rw [if_neg hany]
        rw [List.map_append, List.nodup_append]
        refine ⟨hnodup, by simp, ?_⟩
        intro a ha hb
        simp only [List.map_cons, List.map_nil, List.mem_singleton] at hb
        obtain ⟨x, hx, rfl⟩ := List.mem_map.mp ha
        exact hany (List.any_eq_true.mpr ⟨x, hx, by simp [hb]⟩)
  · intro hloop
    unfold importWalletsSequentially
    rw [List.map_append, List.nodup_append]
    refine ⟨hnodup, hloop, ?_⟩
    intro a ha hb
    obtain ⟨x, hx, rfl⟩ := List.mem_map.mp ha
    obtain ⟨w, hw, heq⟩ := List.mem_map.mp hb
    exact importLoop_fresh imp wallets keys w hw x hx heq.symm

/-- Claim C8 counterexample: importing a file whose two lines hold the same
private key (derivation embedded as address := key) into an empty wallet
list — pairwise distinct vacuously — yields two wallets with the same
address, because each candidate is only checked against the pre-import
list.  This refutes the claim that the wallet list keeps pairwise-distinct
addresses across every import operation. -/
theorem claim_C8_counterexample :
    importWalletsSequentially (fun k => some ⟨0, k, k⟩) [] ["kk", "kk"] =
      [⟨0, "kk", "kk"⟩, ⟨0, "kk", "kk"⟩] ∧
    ¬ ((importWalletsSequentially (fun k => some ⟨0, k, k⟩) [] ["kk", "kk"]).map
        Wallet.address).Nodup ∧
    (([] : List Wallet).map Wallet.address).Nodup := by
  refine ⟨rfl, ?_, by simp⟩
  intro h
  rw [show importWalletsSequentially (fun k => some ⟨0, k, k⟩) [] ["kk", "kk"] =
      [⟨0, "kk", "kk"⟩, ⟨0, "kk", "kk"⟩] from rfl] at h
  simp at h

theorem claim_C8_amended_witness :
    ((handleImportWallet (fun k => some ⟨0, k, k⟩) [⟨1, "a", "ka"⟩] "b").map
      Wallet.address).Nodup :=
  (claim_C8_amended (fun k => some ⟨0, k, k⟩) [⟨1, "a", "ka"⟩] "b" ["c"]
    (by simp)).1

theorem lookup_mapDelete_self (m : List (String × ℚ)) (key : String) :
    List.lookup key (mapDelete m key) = none := by
  induction m with
  | nil => rfl
  | cons p rest ih =>
    unfold mapDelete at ih ⊢
    rw [List.filter_cons]
    by_cases hk : p.1 = key
    · rw [if_neg (by simp [hk])]
      exact ih
    · rw [if_pos (by simp [hk])]
      have hbeq : (key == p.1) = false := by
        simp only [beq_eq_false_iff_ne, ne_eq]
        exact fun h2 => hk h2.symm
      rw [List.lookup, hbeq]
      exact ih

theorem lookup_mapDelete_other (m : List (String × ℚ)) (key a : String)
    (h : a ≠ key) :
    List.lookup a (mapDelete m key) = List.lookup a m := by
  induction m with
  | nil => rfl
  | cons p rest ih =>
    unfold mapDelete at ih ⊢
    rw [List.filter_cons]
    by_cases hk : p.1 = key
    · rw [if_neg (by simp [hk])]
      have hbeq : (a == p.1) = false := by
        simp only [beq_eq_false_iff_ne, ne_eq, hk]
        exact h
      rw [ih, List.lookup, hbeq]
    · rw [if_pos (by simp [hk])]
      rw [List.lookup, List.lookup]
      cases hbeq : a == p.1 with
      | true => rfl
      | false => exact ih

theorem find?_id_eq (wallets : List Wallet) (id : Nat)
    (hids : (wallets.map Wallet.id).Nodup)
    (w : Wallet) (hw : w ∈ wallets) (hid : w.id = id) :
    wallets.find? (fun x => x.id == id) = some w := by
  induction wallets with
  | nil => simp at hw
  | cons a tl ih =>
    have hids2 : (tl.map Wallet.id).Nodup := (List.nodup_cons.mp hids).2
    rw [List.find?_cons]
    cases hbeq : a.id == id with
    | true =>
      have ha : a.id = id := by simpa using hbeq
      rcases List.mem_cons.mp hw with rfl | hw2
      · rfl
      · exfalso
        have : a.id ∈ tl.map Wallet.id := List.mem_map.mpr ⟨w, hw2, by rw [hid, ha]⟩
        exact (List.nodup_cons.mp hids).1 this
    | false =>
      have ha : a.id ≠ id := by simpa using hbeq
      dsimp only
      rcases List.mem_cons.mp hw with rfl | hw2
      · exact absurd hid ha
      · exact ih hids2 hw2

/-- Claim C9: handleDeleteWallet removes exactly the wallet carrying the
given id (ids being pairwise distinct) and deletes exactly the address of
that wallet from the SOL and token balance maps; every other wallet stays in
the list and the balance of every other address is unchanged; when no
wallet carries the id, the wallet list and both maps are untouched.
deleteWallet is modelled from the spec (Utils is outside the sources). -/
theorem claim_C9 (wallets : List Wallet) (sol tok : List (String × ℚ)) (id : Nat)
    (hids : (wallets.map Wallet.id).Nodup) :
    ((∀ w ∈ wallets, w.id ≠ id) →
       handleDeleteWallet wallets sol tok id = (wallets, sol, tok)) ∧
    (∀ w ∈ wallets, w.id = id →
       (handleDeleteWallet wallets sol tok id).1 =
         wallets.filter (fun x => x.id != id) ∧
       w ∉ (handleDeleteWallet wallets sol tok id).1 ∧
       (∀ x ∈ wallets, x ≠ w → x ∈ (handleDeleteWallet wallets sol tok id).1) ∧
       List.lookup w.address (handleDeleteWallet wallets sol tok id).2.1 = none ∧
       List.lookup w.address (handleDeleteWallet wallets sol tok id).2.2 = none ∧
       (∀ a, a ≠ w.address →
          List.lookup a (handleDeleteWallet wallets sol tok id).2.1 =
            List.lookup a sol ∧
          List.lookup a (handleDeleteWallet wallets sol tok id).2.2 =
            List.lookup a tok)) := by
  constructor
  · intro hall
    unfold handleDeleteWallet
    rw [List.find?_eq_none.mpr (by intro x hx; simpa using hall x hx)]
    unfold deleteWallet
    rw [List.filter_eq_self.mpr (by intro x hx; simpa using hall x hx)]
  · intro w hw hid
    have hfind : wallets.find? (fun x => x.id == id) = some w :=
      find?_id_eq wallets id hids w hw hid
    have hinj := List.inj_on_of_nodup_map hids
    refine ⟨?_, ?_, ?_, ?_, ?_, ?_⟩
    · simp only [handleDeleteWallet, hfind]
      rfl
    · simp only [handleDeleteWallet, hfind]
      intro hmem
      have := List.of_mem_filter hmem
      simp [hid] at this
    · intro x hx hxw
      simp only [handleDeleteWallet, hfind]
      apply List.mem_filter.mpr
      refine ⟨hx, ?_⟩
      simp only [bne_iff_ne, ne_eq]
      intro hxid
      exact hxw (hinj hx hw (by rw [hxid, hid]))
    · simp only [handleDeleteWallet, hfind]
      exact lookup_mapDelete_self sol w.address
    · simp only [handleDeleteWallet, hfind]
      exact lookup_mapDelete_self tok w.address
    · intro a ha
      simp only [handleDeleteWallet, hfind]
      exact ⟨lookup_mapDelete_other sol w.address a ha,
        lookup_mapDelete_other tok w.address a ha⟩

theorem claim_C9_witness :
    handleDeleteWallet [⟨1, "a", "ka"⟩] [("a", 3)] [("a", 5)] 7 =
      ([⟨1, "a", "ka"⟩], [("a", 3)], [("a", 5)]) :=
  (claim_C9 [⟨1, "a", "ka"⟩] [("a", 3)] [("a", 5)] 7 (by simp)).1
    (by intro w hw; simp at hw; simp [hw])

end SolanaUI

